import Mathlib

/-!
# Verification of the jq-language-support parser and classifier

This file gives a shallow embedding of the core of the `jq-language-support`
editor extension (second, refined version of `src/extension.ts`): the
line-oriented definition-recovery parser (`JQParser.parse`, embedded as
`recoverDefinitions`), the comment test (`JQParser.isInComment`, embedded as
`isInComment`), the semantic-token classifier
(`provideDocumentSemanticTokens`, embedded as `classifyTokens`), and the
completion builder (`provideCompletionItems`, embedded as
`buildCompletions`).

Documents are modelled as `List Char`.  Line indices follow the source's
`text.split(/\r?\n/)` convention; a token's line number is the number of
newline characters before its offset.  The built-in function list is a
parameter of the classifier (the second version of the source loads it from
`builtins.json`, which is not part of the sources; the constant `BUILTINS`
below is the literal list from the first version in `src/extension.ts`).
-/

abbrev Str := List Char

/-- JavaScript's whitespace class `\s` (also the set used by `trim` and
`trimStart`): space, tab, line terminators and the Unicode space
characters. -/
def isWS (c : Char) : Bool :=
  let n := c.toNat
  n == 32 || n == 9 || n == 10 || n == 11 || n == 12 || n == 13 ||
  n == 0xa0 || n == 0x1680 || (decide (0x2000 ≤ n) && decide (n ≤ 0x200a)) ||
  n == 0x2028 || n == 0x2029 || n == 0x202f || n == 0x205f ||
  n == 0x3000 || n == 0xfeff

/-- First character class of the token regex `[a-zA-Z_][a-zA-Z0-9_]*`. -/
def isIdentStart (c : Char) : Bool :=
  (decide ('a' ≤ c) && decide (c ≤ 'z')) ||
  (decide ('A' ≤ c) && decide (c ≤ 'Z')) || c == '_'

/-- Continuation character class of the token regex. -/
def isIdentChar (c : Char) : Bool :=
  isIdentStart c || (decide ('0' ≤ c) && decide (c ≤ '9'))

/-- JavaScript `String.prototype.trim` on a character list. -/
def trimL (l : Str) : Str :=
  ((l.dropWhile isWS).reverse.dropWhile isWS).reverse

/-- Leading-whitespace length of a line: the source computes it as
`line.length - line.trimStart().length`. -/
def leadWsLen (l : Str) : Nat := (l.takeWhile isWS).length

/-- `l.head? == some '#'`: whether a string starts with the comment marker. -/
def startsHash (l : Str) : Bool := l.head? == some '#'

/-- Whether an argument token carries the value sigil (`startsWith('$')`). -/
def startsDollar (s : Str) : Bool := s.head? == some '$'

/-- Split on `'\n'` only (every occurrence separates). -/
def splitNL : List Char → List (List Char)
  | [] => [[]]
  | c :: cs =>
    if c = '\n' then [] :: splitNL cs
    else
      match splitNL cs with
      | [] => [[c]]
      | x :: xs => (c :: x) :: xs

/-- Remove a single trailing `'\r'`, if present. -/
def dropCR (l : Str) : Str :=
  if l.getLast? = some '\r' then l.dropLast else l

/-- Apply `dropCR` to every element of a list except the last one. -/
def mapInitCR : List Str → List Str
  | [] => []
  | [x] => [x]
  | x :: y :: xs => dropCR x :: mapInitCR (y :: xs)

/-- JavaScript `text.split(/\r?\n/)`: separators are `"\n"` and `"\r\n"`;
equivalently, split on `'\n'` and strip one `'\r'` from the end of every
piece except the last. -/
def splitRN (l : List Char) : List (List Char) := mapInitCR (splitNL l)

/-- JavaScript `String.prototype.split(';')`. -/
def splitSemi : Str → List Str
  | [] => [[]]
  | c :: cs =>
    if c = ';' then [] :: splitSemi cs
    else
      match splitSemi cs with
      | [] => [[c]]
      | x :: xs => (c :: x) :: xs

/-- Argument-list processing of the parser:
`rawArgsStr.split(';').map(s => s.trim()).filter(s => s)`. -/
def parseArgs (raw : Str) : List Str :=
  ((splitSemi raw).map trimL).filter (fun s => !s.isEmpty)

/-- Result of matching the header regex
`/^(\s*)def\s+([a-zA-Z_][a-zA-Z0-9_]*)(?:\(([^)]*)\))?\s*:/` on a line:
the leading-whitespace length, the captured identifier, and the raw
argument-list text (empty when the parenthesised group is absent, matching
`match[3] || ''`). -/
structure HeaderMatch where
  indent : Nat
  hname : Str
  rawArgs : Str
  deriving DecidableEq, Repr

/-- Matcher for the part of the header regex after the leading whitespace,
on the line with its leading whitespace removed.  The regex is
deterministic here: backtracking can never rescue a failed branch, because
the character classes of adjacent pieces are disjoint. -/
def matchHeaderCore (rest0 : Str) : Option (Str × Str) :=
  match rest0 with
  | 'd' :: 'e' :: 'f' :: r2 =>
    if (r2.takeWhile isWS).isEmpty then none
    else
      match r2.dropWhile isWS with
      | c :: r4 =>
        if isIdentStart c then
          let nm := c :: r4.takeWhile isIdentChar
          match r4.dropWhile isIdentChar with
          | '(' :: r5 =>
            match r5.dropWhile (fun ch => !(ch == ')')) with
            | ')' :: r7 =>
              match r7.dropWhile isWS with
              | ':' :: _ => some (nm, r5.takeWhile (fun ch => !(ch == ')')))
              | _ => none
            | _ => none
          | rest =>
            match rest.dropWhile isWS with
            | ':' :: _ => some (nm, [])
            | _ => none
        else none
      | [] => none
  | _ => none

/-- Full header matcher for one line. -/
def matchHeader (line : Str) : Option HeaderMatch :=
  (matchHeaderCore (line.dropWhile isWS)).map fun p =>
    ⟨(line.takeWhile isWS).length, p.1, p.2⟩

/-- A recovered definition, before its end line is known (the entries of
the `defs` array built by the first pass of `JQParser.parse`). -/
structure DefHead where
  name : Str
  valueArgs : List Str
  filterArgs : List Str
  startLine : Nat
  indent : Nat
  deriving DecidableEq, Repr

/-- Build a `DefHead` from a header match at line `i`:
`args = raw.split(';').map(trim).filter(nonempty)`,
`valueArgs = args.filter(startsWith '$')`, `filterArgs` the rest. -/
def mkDefHead (i : Nat) (h : HeaderMatch) : DefHead :=
  let args := parseArgs h.rawArgs
  ⟨h.hname, args.filter startsDollar, args.filter (fun a => !startsDollar a),
    i, h.indent⟩

/-- First pass of `JQParser.parse`: scan the lines in order, collecting a
`DefHead` for every line matching the header regex. -/
def collectDefsFrom : Nat → List Str → List DefHead
  | _, [] => []
  | i, l :: ls =>
    match matchHeader l with
    | some h => mkDefHead i h :: collectDefsFrom (i + 1) ls
    | none => collectDefsFrom (i + 1) ls

/-- Skip test of the second pass:
`line.trim() === '' || line.trim().startsWith('#')`. -/
def skipLine (l : Str) : Bool :=
  (trimL l).isEmpty || startsHash (trimL l)

/-- A line terminates a definition body when it is not skipped and its
leading-whitespace length is at most the header's indentation. -/
def isTermLine (l : Str) (indent : Nat) : Bool :=
  !skipLine l && decide (leadWsLen l ≤ indent)

/-- Second pass of `JQParser.parse` for a single definition: starting at the
line after the header, the first non-skipped line whose indentation is
`≤ indent` ends the body at the preceding line; otherwise the body runs to
the last line. -/
def computeEndLine (lines : List Str) (startLine indent : Nat) : Nat :=
  match (List.range' (startLine + 1) (lines.length - (startLine + 1))).find?
      (fun j => isTermLine (lines.getD j []) indent) with
  | some j => j - 1
  | none => lines.length - 1

/-- A recovered function record (`JQFunction` in the source). -/
structure JQFunction where
  name : Str
  valueArgs : List Str
  filterArgs : List Str
  startLine : Nat
  endLine : Nat
  deriving DecidableEq, Repr

/-- `JQParser.parse`: split the text into lines, collect the definition
headers, then attach to each its computed end line. -/
def recoverDefinitions (text : Str) : List JQFunction :=
  let lines := splitRN text
  (collectDefsFrom 0 lines).map fun d =>
    ⟨d.name, d.valueArgs, d.filterArgs, d.startLine,
      computeEndLine lines d.startLine d.indent⟩

/-- JavaScript `text.lastIndexOf('\n', k)`: the greatest index `i ≤ k`
holding a newline, if any (indices past the end never hold one). -/
def lastNL (l : List Char) : Nat → Option Nat
  | 0 => if l.getD 0 ' ' = '\n' then some 0 else none
  | k + 1 => if l.getD (k + 1) ' ' = '\n' then some (k + 1) else lastNL l k

/-- Index of the first newline of a list, if any. -/
def idxNL : List Char → Option Nat
  | [] => none
  | c :: cs => if c = '\n' then some 0 else (idxNL cs).map (· + 1)

/-- JavaScript `text.indexOf('\n', s)` (absolute index). -/
def firstNLfrom (t : List Char) (s : Nat) : Option Nat :=
  (idxNL (t.drop s)).map (s + ·)

/-- `text.lastIndexOf('\n', offset - 1) + 1`: the start offset of the line
around `offset` (truncated subtraction mirrors JavaScript's clamping of a
negative `fromIndex` to `0`). -/
def lineStartOf (text : List Char) (offset : Nat) : Nat :=
  match lastNL text (offset - 1) with
  | some i => i + 1
  | none => 0

/-- `JQParser.isInComment(text, offset)`: recover the token's line from the
raw text by scanning for the surrounding newlines (note the search for the
line end starts at `lineStart + 1`), then test it against `/^\s*#/`. -/
def isInComment (text : List Char) (offset : Nat) : Bool :=
  let lineStart := lineStartOf text offset
  let lineEnd : Nat :=
    match firstNLfrom text (lineStart + 1) with
    | some j => j
    | none => text.length
  startsHash (((text.drop lineStart).take (lineEnd - lineStart)).dropWhile isWS)

/-- One identifier token found by the scan of `/([a-zA-Z_][a-zA-Z0-9_]*)/g`. -/
structure Token where
  offset : Nat
  word : Str
  deriving DecidableEq, Repr

/-- The `tokenRegex.exec` loop: at each position, a match starts exactly at a
character of class `[a-zA-Z_]` and greedily extends over `[a-zA-Z0-9_]`;
the scan resumes after the match.  The first argument is fuel making the
recursion structural; every step consumes at least one character, so any
fuel at least the list length yields the full scan. -/
def tokenizeAux : Nat → List Char → Nat → List Token
  | 0, _, _ => []
  | _ + 1, [], _ => []
  | fuel + 1, c :: cs, pos =>
    if isIdentStart c then
      ⟨pos, c :: cs.takeWhile isIdentChar⟩ ::
        tokenizeAux fuel (cs.dropWhile isIdentChar)
          (pos + 1 + (cs.takeWhile isIdentChar).length)
    else
      tokenizeAux fuel cs (pos + 1)

/-- All identifier tokens of the document, with their offsets. -/
def tokenize (text : Str) : List Token := tokenizeAux text.length text 0

/-- Line number of an offset: the number of newline characters before it
(the `position.line` of `document.positionAt(offset)`). -/
def lineOf (text : Str) (off : Nat) : Nat := (text.take off).count '\n'

/-- The three classification outcomes of the semantic-token provider.  The
source pushes the legend type `'parameter'` for parameters and `'function'`
for both user functions and built-ins; the latter two are distinguished here
by which branch fired, as the specification does. -/
inductive Category where
  | parameter
  | functionUser
  | functionBuiltin
  deriving DecidableEq, Repr

/-- A classified span: the source pushes a range starting at the token
offset with the token's length; the token text is carried alongside. -/
structure Span where
  offset : Nat
  word : Str
  cat : Category
  deriving DecidableEq, Repr

/-- `arg.startsWith('$') ? arg.substring(1) : arg`. -/
def stripSigil (a : Str) : Str :=
  match a with
  | '$' :: r => r
  | _ => a

/-- The `allParams` set: stripped value-parameter names and verbatim
filter-parameter names of every recovered definition. -/
def allParams (fns : List JQFunction) : List Str :=
  fns.flatMap fun f => f.valueArgs.map stripSigil ++ f.filterArgs

/-- `getContextFunction`: the first recovered record whose
`[startLine, endLine]` range contains the line. -/
def getContextFunction (fns : List JQFunction) (line : Nat) : Option JQFunction :=
  fns.find? fun f => decide (f.startLine ≤ line) && decide (line ≤ f.endLine)

/-- Whether a word is a parameter of the enclosing definition
(`isValueParam || isFilterParam` in the source): a value parameter matches
with the sigil stripped, a filter parameter verbatim. -/
def isParamWord (fns : List JQFunction) (line : Nat) (w : Str) : Bool :=
  match getContextFunction fns line with
  | some f =>
    f.valueArgs.any (fun a => stripSigil a == w) ||
      f.filterArgs.any (fun a => a == w)
  | none => false

/-- The per-token priority chain of `provideDocumentSemanticTokens`:
parameter of the enclosing definition, else user-defined function name,
else built-in name not shadowed by any parameter name, else nothing. -/
def classifyWord (builtins : List Str) (fns : List JQFunction)
    (params : List Str) (line : Nat) (w : Str) : Option Category :=
  if isParamWord fns line w then some .parameter
  else if fns.any (fun f => f.name == w) then some .functionUser
  else if builtins.any (fun b => b == w) && !params.any (fun p => p == w)
    then some .functionBuiltin
  else none

/-- The classifier: scan all tokens, skip those on comment lines, and emit
a span for each token the priority chain classifies.  (`params` is the
`allParams` set built once per request.) -/
def classifyTokens (builtins : List Str) (text : Str)
    (fns : List JQFunction) : List Span :=
  (tokenize text).filterMap fun t =>
    if isInComment text t.offset then none
    else (classifyWord builtins fns (allParams fns) (lineOf text t.offset)
        t.word).map fun c => ⟨t.offset, t.word, c⟩

/-- The built-in function list of the first version in `src/extension.ts`
(the second version loads the list from `builtins.json`, which is not among
the sources; the classifier and completion builder below take the list as a
parameter, and this constant is used for concrete instances). -/
def BUILTINS : List Str :=
  ["length", "keys", "map", "select", "has", "contains", "unique", "sort",
   "group_by", "to_entries", "from_entries", "split", "join", "tostring",
   "tonumber", "range", "limit", "isempty", "error", "empty", "debug",
   "type", "del", "walk", "transpose", "all", "any"].map String.toList

/-- Completion item kinds used by the provider. -/
inductive CompKind where
  | var
  | func
  deriving DecidableEq, Repr

/-- A completion item: label, kind, detail text, sort text, insert text
(with a flag telling whether it is a snippet), and filter text. -/
structure CompletionItem where
  label : Str
  kind : CompKind
  detail : Option Str
  sortText : Option Str
  insertText : Str
  isSnippet : Bool
  filterText : Option Str
  deriving DecidableEq, Repr

/-- `arg.startsWith('$') ? arg : '$' + arg`. -/
def toDollarName (a : Str) : Str :=
  if startsDollar a then a else '$' :: a

/-- Value-parameter completion item.  When the trigger was the sigil, the
inserted and filter text drop the sigil. -/
def mkValueParamItem (isDollar : Bool) (fname a : Str) : CompletionItem :=
  { label := toDollarName a
    kind := .var
    detail := some ("Value parameter of ".toList ++ fname)
    sortText := some "0000".toList
    insertText := if isDollar then stripSigil a else toDollarName a
    isSnippet := false
    filterText := if isDollar then some (stripSigil a) else none }

/-- Filter-parameter completion item. -/
def mkFilterParamItem (fname a : Str) : CompletionItem :=
  { label := a
    kind := .var
    detail := some ("Filter parameter of ".toList ++ fname)
    sortText := some "0001".toList
    insertText := a
    isSnippet := false
    filterText := none }

/-- The parameter placeholders of a user-function snippet:
`allArgs.map((arg, idx) => "$\x7b" + (idx+1) + ":" + paramName + "\x7d").join('; ')`. -/
def argPlaceholders (args : List Str) : Str :=
  List.intercalate "; ".toList (args.enum.map fun p =>
    '$' :: '\x7b' :: ((Nat.repr (p.1 + 1)).toList ++ ':' :: stripSigil p.2 ++ ['\x7d']))

/-- User-function completion item: a parameter-placeholder snippet when the
function has arguments, the bare name otherwise. -/
def mkFuncItem (f : JQFunction) : CompletionItem :=
  let allArgs := f.valueArgs ++ f.filterArgs
  { label := f.name
    kind := .func
    detail := some "User defined function".toList
    sortText := none
    insertText :=
      if allArgs.isEmpty then f.name
      else f.name ++ '(' :: argPlaceholders allArgs ++ [')']
    isSnippet := !allArgs.isEmpty
    filterText := none }

/-- Built-in completion item (only the label is set by the source). -/
def mkBuiltinItem (b : Str) : CompletionItem :=
  { label := b
    kind := .func
    detail := none
    sortText := none
    insertText := b
    isSnippet := false
    filterText := none }

/-- `provideCompletionItems`: parameters of the enclosing definition (value
then filter), then every recovered function whose name differs from the
enclosing one's, then all built-ins.  `charBefore` is the character before
the cursor (only consulted when the cursor column is positive). -/
def buildCompletions (builtins : List Str) (text : Str)
    (cursorLine cursorCol : Nat) (charBefore : Str) : List CompletionItem :=
  let fns := recoverDefinitions text
  let current := fns.find? fun f =>
    decide (f.startLine ≤ cursorLine) && decide (cursorLine ≤ f.endLine)
  let isDollar := decide (0 < cursorCol) && (charBefore == "$".toList)
  let paramItems :=
    match current with
    | none => []
    | some f =>
      f.valueArgs.map (mkValueParamItem isDollar f.name) ++
        f.filterArgs.map (mkFilterParamItem f.name)
  let funcItems := fns.filterMap fun f =>
    match current with
    | some c => if f.name == c.name then none else some (mkFuncItem f)
    | none => some (mkFuncItem f)
  paramItems ++ funcItems ++ builtins.map mkBuiltinItem

/-! ## Lemmas about `find?` on index ranges -/

theorem dropWhile_length_le (p : Char → Bool) (l : List Char) :
    (l.dropWhile p).length ≤ l.length := by
  induction l with
  | nil => simp [List.dropWhile]
  | cons c cs ih =>
    by_cases h : p c
    · simp only [List.dropWhile, h]
      exact Nat.le_succ_of_le ih
    · simp [List.dropWhile, h]

theorem find?_range'_eq_some {p : Nat → Bool} {s n j : Nat}
    (h : (List.range' s n).find? p = some j) :
    p j = true ∧ s ≤ j ∧ j < s + n ∧ ∀ k, s ≤ k → k < j → p k = false := by
  induction n generalizing s with
  | zero => simp [List.range'] at h
  | succ n ih =>
    rw [List.range'_succ] at h
    by_cases hp : p s
    · rw [List.find?_cons_of_pos _ hp] at h
      obtain rfl : s = j := by simpa using h
      exact ⟨hp, Nat.le_refl _, by omega, fun k hk1 hk2 => absurd hk1 (by omega)⟩
    · rw [List.find?_cons_of_neg _ hp] at h
      obtain ⟨h1, h2, h3, h4⟩ := ih h
      refine ⟨h1, by omega, by omega, fun k hk1 hk2 => ?_⟩
      rcases Nat.eq_or_lt_of_le hk1 with rfl | hlt
      · exact Bool.eq_false_iff.mpr hp
      · exact h4 k hlt hk2

theorem find?_range'_eq_none {p : Nat → Bool} {s n : Nat}
    (h : (List.range' s n).find? p = none) :
    ∀ k, s ≤ k → k < s + n → p k = false := by
  induction n generalizing s with
  | zero => omega
  | succ n ih =>
    rw [List.range'_succ] at h
    by_cases hp : p s
    · rw [List.find?_cons_of_pos _ hp] at h; exact absurd h (by simp)
    · rw [List.find?_cons_of_neg _ hp] at h
      intro k hk1 hk2
      rcases Nat.eq_or_lt_of_le hk1 with rfl | hlt
      · exact Bool.eq_false_iff.mpr hp
      · exact ih h k hlt (by omega)

/-! ## Structure of the recovery passes -/

theorem matchHeader_indent {line : Str} {h : HeaderMatch}
    (hm : matchHeader line = some h) : h.indent = leadWsLen line := by
  unfold matchHeader at hm
  cases hc : matchHeaderCore (line.dropWhile isWS) with
  | none => rw [hc] at hm; simp at hm
  | some p =>
    rw [hc] at hm
    simp only [Option.map_some', Option.some.injEq] at hm
    subst hm; rfl

theorem collectDefsFrom_mem : ∀ (ls : List Str) (i : Nat) (d : DefHead),
    d ∈ collectDefsFrom i ls →
    i ≤ d.startLine ∧ d.startLine < i + ls.length ∧
      ∃ h, matchHeader (ls.getD (d.startLine - i) []) = some h ∧
        d = mkDefHead d.startLine h := by
  intro ls
  induction ls with
  | nil => intro i d hd; simp [collectDefsFrom] at hd
  | cons l ls ih =>
    intro i d hd
    rw [collectDefsFrom] at hd
    cases hm : matchHeader l with
    | some h =>
      rw [hm] at hd
      rcases List.mem_cons.mp hd with rfl | hd'
      · refine ⟨Nat.le_refl _, by simp [mkDefHead], h, ?_, rfl⟩
        simp [mkDefHead, hm]
      · obtain ⟨h1, h2, hh, hmh, hd2⟩ := ih (i + 1) d hd'
        refine ⟨by omega, by simp; omega, hh, ?_, hd2⟩
        have : d.startLine - i = (d.startLine - (i + 1)) + 1 := by omega
        rw [this, List.getD_cons_succ]
        exact hmh
    | none =>
      rw [hm] at hd
      obtain ⟨h1, h2, hh, hmh, hd2⟩ := ih (i + 1) d hd
      refine ⟨by omega, by simp; omega, hh, ?_, hd2⟩
      have : d.startLine - i = (d.startLine - (i + 1)) + 1 := by omega
      rw [this, List.getD_cons_succ]
      exact hmh

theorem collectDefsFrom_filter_eq : ∀ (ls : List Str) (i j : Nat) (h : HeaderMatch),
    i ≤ j → j < i + ls.length → matchHeader (ls.getD (j - i) []) = some h →
    (collectDefsFrom i ls).filter (fun d => d.startLine == j) = [mkDefHead j h] := by
  intro ls
  induction ls with
  | nil => intro i j h h1 h2 h3; simp at h2; omega
  | cons l ls ih =>
    intro i j h h1 h2 h3
    rcases Nat.eq_or_lt_of_le h1 with rfl | hlt
    · rw [Nat.sub_self, List.getD_cons_zero] at h3
      rw [collectDefsFrom, h3, List.filter_cons]
      have hs : ((mkDefHead i h).startLine == i) = true := by simp [mkDefHead]
      rw [if_pos hs]
      have htail : (collectDefsFrom (i + 1) ls).filter (fun d => d.startLine == i) = [] := by
        rw [List.filter_eq_nil_iff]
        intro d hd
        have := (collectDefsFrom_mem ls (i + 1) d hd).1
        simp only [beq_iff_eq]
        omega
      rw [htail]
    · have h3' : matchHeader (ls.getD (j - (i + 1)) []) = some h := by
        have : j - i = (j - (i + 1)) + 1 := by omega
        rw [this, List.getD_cons_succ] at h3
        exact h3
      have htail := ih (i + 1) j h (by omega) (by simp at h2 ⊢; omega) h3'
      rw [collectDefsFrom]
      cases hm : matchHeader l with
      | some h0 =>
        rw [List.filter_cons]
        have hs : ((mkDefHead i h0).startLine == j) = false := by
          simp [mkDefHead]; omega
        rw [if_neg (by simp [hs]), htail]
      | none => exact htail

theorem collectDefsFrom_length : ∀ (ls : List Str) (i : Nat),
    (collectDefsFrom i ls).length = ls.countP (fun l => (matchHeader l).isSome) := by
  intro ls
  induction ls with
  | nil => intro i; simp [collectDefsFrom]
  | cons l ls ih =>
    intro i
    rw [collectDefsFrom, List.countP_cons]
    cases hm : matchHeader l with
    | some h => simp [hm, ih (i + 1)]
    | none => simp [hm, ih (i + 1)]

theorem splitNL_ne_nil : ∀ l : List Char, splitNL l ≠ [] := by
  intro l
  cases l with
  | nil => simp [splitNL]
  | cons c cs =>
    rw [splitNL]
    by_cases h : c = '\n'
    · simp [h]
    · cases hs : splitNL cs <;> simp [h, hs]

theorem splitRN_ne_nil (l : List Char) : splitRN l ≠ [] := by
  rw [splitRN]
  cases hs : splitNL l with
  | nil => exact absurd hs (splitNL_ne_nil l)
  | cons x xs => cases xs <;> simp [mapInitCR]

theorem recoverDefinitions_mem {text : Str} {r : JQFunction}
    (hr : r ∈ recoverDefinitions text) :
    ∃ d ∈ collectDefsFrom 0 (splitRN text),
      r = ⟨d.name, d.valueArgs, d.filterArgs, d.startLine,
        computeEndLine (splitRN text) d.startLine d.indent⟩ := by
  unfold recoverDefinitions at hr
  obtain ⟨d, hd, rfl⟩ := List.mem_map.mp hr
  exact ⟨d, hd, rfl⟩

theorem recoverDefinitions_startLine_header {text : Str} {r : JQFunction}
    (hr : r ∈ recoverDefinitions text) :
    r.startLine < (splitRN text).length ∧
      ∃ h, matchHeader ((splitRN text).getD r.startLine []) = some h ∧
        r = ⟨h.hname, (parseArgs h.rawArgs).filter startsDollar,
          (parseArgs h.rawArgs).filter (fun a => !startsDollar a), r.startLine,
          computeEndLine (splitRN text) r.startLine h.indent⟩ := by
  obtain ⟨d, hd, rfl⟩ := recoverDefinitions_mem hr
  obtain ⟨h0, h1, hh, hmh, hdm⟩ := collectDefsFrom_mem (splitRN text) 0 d hd
  rw [Nat.sub_zero] at hmh
  refine ⟨by simpa using h1, hh, hmh, ?_⟩
  rw [hdm]
  rfl

/-- C1: every recovered record's `endLine` is obtained by the indentation
scan: no line strictly between the header line and `endLine` (inclusive) is
a terminator (non-blank, non-comment, indented at most the header's
leading-whitespace length), and the line right after `endLine`, when it
exists, is a terminator; in particular `endLine` is the last line of the
document when no terminator exists. -/
theorem recoverDefinitions_endLine_scan (text : Str) (r : JQFunction)
    (hr : r ∈ recoverDefinitions text) :
    r.endLine < (splitRN text).length ∧
    (∀ j, r.startLine < j → j ≤ r.endLine →
      isTermLine ((splitRN text).getD j [])
        (leadWsLen ((splitRN text).getD r.startLine [])) = false) ∧
    (r.endLine + 1 < (splitRN text).length →
      isTermLine ((splitRN text).getD (r.endLine + 1) [])
        (leadWsLen ((splitRN text).getD r.startLine [])) = true) := by
  obtain ⟨d, hd, rfl⟩ := recoverDefinitions_mem hr
  obtain ⟨h0, h1, hh, hmh, hdm⟩ := collectDefsFrom_mem (splitRN text) 0 d hd
  rw [Nat.sub_zero] at hmh
  have hlen : d.startLine < (splitRN text).length := by simpa using h1
  have hind : d.indent = leadWsLen ((splitRN text).getD d.startLine []) := by
    have h2 := matchHeader_indent hmh
    have h3 : d.indent = hh.indent := by rw [hdm]; rfl
    rw [h3, h2]
  simp only [hind] at *
  unfold computeEndLine
  cases hf : (List.range' (d.startLine + 1)
      ((splitRN text).length - (d.startLine + 1))).find?
      (fun j => isTermLine ((splitRN text).getD j [])
        (leadWsLen ((splitRN text).getD d.startLine []))) with
  | some j =>
    obtain ⟨hp, hj1, hj2, hj3⟩ := find?_range'_eq_some hf
    have hjlen : j < (splitRN text).length := by omega
    refine ⟨?_, ?_, ?_⟩
    · show j - 1 < (splitRN text).length
      omega
    · intro k hk1 hk2
      have hk2' : k ≤ j - 1 := hk2
      exact hj3 k (by omega) (by omega)
    · intro _
      show isTermLine ((splitRN text).getD (j - 1 + 1) [])
        (leadWsLen ((splitRN text).getD d.startLine [])) = true
      have hj : j - 1 + 1 = j := by omega
      rw [hj]
      exact hp
  | none =>
    have hall := find?_range'_eq_none hf
    have hlen1 : 1 ≤ (splitRN text).length :=
      List.length_pos.mpr (splitRN_ne_nil text)
    refine ⟨?_, ?_, ?_⟩
    · show (splitRN text).length - 1 < (splitRN text).length
      omega
    · intro k hk1 hk2
      have hk2' : k ≤ (splitRN text).length - 1 := hk2
      exact hall k (by omega) (by omega)
    · intro hcon
      have hcon' : (splitRN text).length - 1 + 1 < (splitRN text).length := hcon
      omega

/-- Witness for `recoverDefinitions_endLine_scan` at a concrete input. -/
theorem recoverDefinitions_endLine_scan_witness :
    (⟨['f'], [], [], 0, 0⟩ : JQFunction) ∈ recoverDefinitions "def f:\nx".toList ∧
    ((⟨['f'], [], [], 0, 0⟩ : JQFunction).endLine < (splitRN "def f:\nx".toList).length ∧
    (∀ j, (⟨['f'], [], [], 0, 0⟩ : JQFunction).startLine < j →
      j ≤ (⟨['f'], [], [], 0, 0⟩ : JQFunction).endLine →
      isTermLine ((splitRN "def f:\nx".toList).getD j [])
        (leadWsLen ((splitRN "def f:\nx".toList).getD
          (⟨['f'], [], [], 0, 0⟩ : JQFunction).startLine [])) = false) ∧
    ((⟨['f'], [], [], 0, 0⟩ : JQFunction).endLine + 1 < (splitRN "def f:\nx".toList).length →
      isTermLine ((splitRN "def f:\nx".toList).getD
          ((⟨['f'], [], [], 0, 0⟩ : JQFunction).endLine + 1) [])
        (leadWsLen ((splitRN "def f:\nx".toList).getD
          (⟨['f'], [], [], 0, 0⟩ : JQFunction).startLine [])) = true)) :=
  ⟨by decide, recoverDefinitions_endLine_scan "def f:\nx".toList _ (by decide)⟩

/-- C7: for every recovered record, `startLine ≤ endLine`, and `endLine` is
a valid line index of the document. -/
theorem recoverDefinitions_line_range_invariant (text : Str) (r : JQFunction)
    (hr : r ∈ recoverDefinitions text) :
    r.startLine ≤ r.endLine ∧ r.endLine < (splitRN text).length := by
  obtain ⟨d, hd, rfl⟩ := recoverDefinitions_mem hr
  obtain ⟨h0, h1, hh, hmh, hdm⟩ := collectDefsFrom_mem (splitRN text) 0 d hd
  have hlen : d.startLine < (splitRN text).length := by simpa using h1
  unfold computeEndLine
  cases hf : (List.range' (d.startLine + 1)
      ((splitRN text).length - (d.startLine + 1))).find?
      (fun j => isTermLine ((splitRN text).getD j []) d.indent) with
  | some j =>
    obtain ⟨hp, hj1, hj2, hj3⟩ := find?_range'_eq_some hf
    constructor
    · show d.startLine ≤ j - 1
      omega
    · show j - 1 < (splitRN text).length
      omega
  | none =>
    have hlen1 : 1 ≤ (splitRN text).length :=
      List.length_pos.mpr (splitRN_ne_nil text)
    constructor
    · show d.startLine ≤ (splitRN text).length - 1
      omega
    · show (splitRN text).length - 1 < (splitRN text).length
      omega

/-- Witness for `recoverDefinitions_line_range_invariant`. -/
theorem recoverDefinitions_line_range_invariant_witness :
    (⟨['f'], [], [], 0, 1⟩ : JQFunction) ∈ recoverDefinitions "def f:\n  x".toList ∧
    ((⟨['f'], [], [], 0, 1⟩ : JQFunction).startLine ≤
        (⟨['f'], [], [], 0, 1⟩ : JQFunction).endLine ∧
      (⟨['f'], [], [], 0, 1⟩ : JQFunction).endLine <
        (splitRN "def f:\n  x".toList).length) :=
  ⟨by decide, recoverDefinitions_line_range_invariant "def f:\n  x".toList _ (by decide)⟩

theorem recoverDefinitions_eq (text : Str) :
    recoverDefinitions text =
      (collectDefsFrom 0 (splitRN text)).map fun d =>
        ⟨d.name, d.valueArgs, d.filterArgs, d.startLine,
          computeEndLine (splitRN text) d.startLine d.indent⟩ := rfl

/-- C5: every line matching the header regex yields exactly one record,
carrying the header's identifier; its arguments are the raw argument text
split on `;`, trimmed, with empty pieces discarded, partitioned into
sigil-prefixed `valueArgs` and the remaining `filterArgs`, in source
order. -/
theorem recoverDefinitions_one_record_per_header (text : Str) (j : Nat)
    (h : HeaderMatch) (hj : j < (splitRN text).length)
    (hm : matchHeader ((splitRN text).getD j []) = some h) :
    ((recoverDefinitions text).filter (fun r => r.startLine == j)).map
        (fun r => (r.name, r.valueArgs, r.filterArgs)) =
      [(h.hname,
        (((splitSemi h.rawArgs).map trimL).filter
          (fun s => !s.isEmpty)).filter startsDollar,
        (((splitSemi h.rawArgs).map trimL).filter
          (fun s => !s.isEmpty)).filter (fun a => !startsDollar a))] := by
  have hcf := collectDefsFrom_filter_eq (splitRN text) 0 j h (Nat.zero_le j)
    (by simpa using hj) (by simpa using hm)
  rw [recoverDefinitions_eq, List.filter_map]
  have hpred : ((fun r : JQFunction => r.startLine == j) ∘
      (fun d : DefHead => (⟨d.name, d.valueArgs, d.filterArgs, d.startLine,
        computeEndLine (splitRN text) d.startLine d.indent⟩ : JQFunction))) =
      (fun d : DefHead => d.startLine == j) := rfl
  rw [hpred, hcf]
  rfl

/-- Witness for `recoverDefinitions_one_record_per_header`. -/
theorem recoverDefinitions_one_record_per_header_witness :
    (0 < (splitRN "def f($a; b):".toList).length) ∧
    (matchHeader ((splitRN "def f($a; b):".toList).getD 0 []) =
      some ⟨0, ['f'], "$a; b".toList⟩) ∧
    (((recoverDefinitions "def f($a; b):".toList).filter
        (fun r => r.startLine == 0)).map
        (fun r => (r.name, r.valueArgs, r.filterArgs)) =
      [(['f'],
        (((splitSemi "$a; b".toList).map trimL).filter
          (fun s => !s.isEmpty)).filter startsDollar,
        (((splitSemi "$a; b".toList).map trimL).filter
          (fun s => !s.isEmpty)).filter (fun a => !startsDollar a))]) :=
  ⟨by decide, by decide,
    recoverDefinitions_one_record_per_header "def f($a; b):".toList 0
      ⟨0, ['f'], "$a; b".toList⟩ (by decide) (by decide)⟩

/-- C9: recovery is total by construction (it is a plain function into
lists); the number of records equals the number of lines matching the
header pattern, and a line failing the pattern (e.g. a malformed header)
contributes no record. -/
theorem recoverDefinitions_total_count (text : Str) :
    (recoverDefinitions text).length =
      (splitRN text).countP (fun l => (matchHeader l).isSome) ∧
    ∀ i, i < (splitRN text).length →
      matchHeader ((splitRN text).getD i []) = none →
      ∀ r ∈ recoverDefinitions text, r.startLine ≠ i := by
  constructor
  · rw [recoverDefinitions_eq, List.length_map]
    exact collectDefsFrom_length _ 0
  · intro i hi hnone r hr hri
    obtain ⟨hlt, hh, hmh, _⟩ := recoverDefinitions_startLine_header hr
    rw [hri, hnone] at hmh
    exact Option.noConfusion hmh

/-- Witness for `recoverDefinitions_total_count`: the second line
`def foo(a:` has an unbalanced parenthesis, fails the pattern and yields no
record. -/
theorem recoverDefinitions_total_count_witness :
    (1 < (splitRN "def f:\ndef foo(a:".toList).length) ∧
    (matchHeader ((splitRN "def f:\ndef foo(a:".toList).getD 1 []) = none) ∧
    (∀ r ∈ recoverDefinitions "def f:\ndef foo(a:".toList, r.startLine ≠ 1) :=
  ⟨by decide, by decide,
    (recoverDefinitions_total_count "def f:\ndef foo(a:".toList).2 1
      (by decide) (by decide)⟩

/-! ## The classifier never marks a shadowed built-in -/

theorem classifyWord_builtin_not_param {builtins : List Str}
    {fns : List JQFunction} {params : List Str} {line : Nat} {w : Str}
    (h : classifyWord builtins fns params line w = some .functionBuiltin) :
    params.any (fun p => p == w) = false := by
  unfold classifyWord at h
  split at h
  · simp at h
  · split at h
    · simp at h
    · split at h
      · rename_i hcond
        rw [Bool.and_eq_true, Bool.not_eq_true'] at hcond
        exact hcond.2
      · simp at h

theorem classifyTokens_mem {builtins : List Str} {text : Str}
    {fns : List JQFunction} {s : Span}
    (hs : s ∈ classifyTokens builtins text fns) :
    ∃ t ∈ tokenize text, isInComment text t.offset = false ∧
      classifyWord builtins fns (allParams fns) (lineOf text t.offset) t.word =
        some s.cat ∧ s.offset = t.offset ∧ s.word = t.word := by
  unfold classifyTokens at hs
  obtain ⟨t, ht, hg⟩ := List.mem_filterMap.mp hs
  by_cases hic : isInComment text t.offset
  · rw [if_pos hic] at hg
    exact absurd hg (by simp)
  · rw [if_neg hic] at hg
    cases hcw : classifyWord builtins fns (allParams fns)
        (lineOf text t.offset) t.word with
    | none => rw [hcw] at hg; exact absurd hg (by simp)
    | some c =>
      rw [hcw] at hg
      simp only [Option.map_some', Option.some.injEq] at hg
      subst hg
      exact ⟨t, ht, Bool.eq_false_iff.mpr hic, hcw, rfl, rfl⟩

/-- C3: if any recovered definition has a parameter named `x` (value
parameters compared with the sigil stripped, filter parameters verbatim),
then no emitted span with word `x` — anywhere in the document — carries the
built-in classification, whatever the built-in name set contains. -/
theorem shadowed_builtin_never_classified (builtins : List Str) (text : Str)
    (x : Str)
    (hx : ∃ f ∈ recoverDefinitions text,
      x ∈ f.valueArgs.map stripSigil ∨ x ∈ f.filterArgs) :
    ∀ s ∈ classifyTokens builtins text (recoverDefinitions text),
      s.word = x → s.cat ≠ Category.functionBuiltin := by
  intro s hs hw hcat
  obtain ⟨f, hf, hca⟩ := hx
  have hxp : x ∈ allParams (recoverDefinitions text) := by
    unfold allParams
    rw [List.mem_flatMap]
    refine ⟨f, hf, ?_⟩
    rcases hca with hv | hfa
    · exact List.mem_append_left _ hv
    · exact List.mem_append_right _ hfa
  obtain ⟨t, ht, hic, hcw, hoff, hword⟩ := classifyTokens_mem hs
  rw [hcat] at hcw
  have hnp := classifyWord_builtin_not_param hcw
  rw [List.any_eq_false] at hnp
  exact absurd (beq_iff_eq.mpr (hword ▸ hw).symm) (by simpa using hnp x hxp)

/-- Witness for `shadowed_builtin_never_classified`: `map` is a filter
parameter of `f` and also a built-in name; the span emitted for it is a
parameter span, not a built-in one. -/
theorem shadowed_builtin_never_classified_witness :
    (∃ f ∈ recoverDefinitions "def f(map):\n  map".toList,
      "map".toList ∈ f.valueArgs.map stripSigil ∨ "map".toList ∈ f.filterArgs) ∧
    ((⟨14, "map".toList, Category.parameter⟩ : Span) ∈
      classifyTokens BUILTINS "def f(map):\n  map".toList
        (recoverDefinitions "def f(map):\n  map".toList)) ∧
    (⟨14, "map".toList, Category.parameter⟩ : Span).cat ≠ Category.functionBuiltin :=
  ⟨by decide, by decide,
    shadowed_builtin_never_classified BUILTINS "def f(map):\n  map".toList
      "map".toList (by decide) _ (by decide) (by decide)⟩

/-- C2: on the worked example of the specification, recovery returns the two
stated records in order, and the classifier marks the token `foo` on line 3
(offset 36) as a user-defined function. -/
theorem example_two_defs_classification :
    recoverDefinitions "def foo($a; b):\n  $a + b\ndef bar:\n  foo(1;2)".toList =
      [⟨"foo".toList, ["$a".toList], [['b']], 0, 1⟩,
       ⟨"bar".toList, [], [], 2, 3⟩] ∧
    lineOf "def foo($a; b):\n  $a + b\ndef bar:\n  foo(1;2)".toList 36 = 3 ∧
    (⟨36, "foo".toList, Category.functionUser⟩ : Span) ∈
      classifyTokens BUILTINS
        "def foo($a; b):\n  $a + b\ndef bar:\n  foo(1;2)".toList
        (recoverDefinitions
          "def foo($a; b):\n  $a + b\ndef bar:\n  foo(1;2)".toList) := by
  decide

/-! ## The completion list -/

theorem filterMap_guard_map {α β : Type} (p : α → Bool) (g : α → β)
    (l : List α) :
    (l.filterMap fun a => if p a then none else some (g a)) =
      (l.filter fun a => !p a).map g := by
  induction l with
  | nil => rfl
  | cons a l ih =>
    by_cases h : p a
    · simp [List.filterMap_cons, List.filter_cons, h, ih]
    · simp [List.filterMap_cons, List.filter_cons, h, ih]

/-- C8: the completion list is, in order: the enclosing definition's value
parameters (sort text `"0000"`, the highest priority), its filter
parameters (sort text `"0001"`), every recovered function whose name
differs from the enclosing definition's name (a placeholder snippet exactly
when it has arguments), and all built-ins unconditionally; with no
enclosing definition, every recovered function is offered. -/
theorem buildCompletions_fixed_order (builtins : List Str) (text : Str)
    (cl cc : Nat) (cb : Str) :
    ((recoverDefinitions text).find? (fun f =>
        decide (f.startLine ≤ cl) && decide (cl ≤ f.endLine)) = none →
      buildCompletions builtins text cl cc cb =
        (recoverDefinitions text).map mkFuncItem ++ builtins.map mkBuiltinItem) ∧
    (∀ cur, (recoverDefinitions text).find? (fun f =>
        decide (f.startLine ≤ cl) && decide (cl ≤ f.endLine)) = some cur →
      buildCompletions builtins text cl cc cb =
        cur.valueArgs.map
          (mkValueParamItem (decide (0 < cc) && (cb == "$".toList)) cur.name) ++
        cur.filterArgs.map (mkFilterParamItem cur.name) ++
        ((recoverDefinitions text).filter
          (fun f => !(f.name == cur.name))).map mkFuncItem ++
        builtins.map mkBuiltinItem) ∧
    (∀ f : JQFunction,
      (mkFuncItem f).isSnippet = !(f.valueArgs ++ f.filterArgs).isEmpty) ∧
    (∀ d : Bool, ∀ fn a : Str,
      (mkValueParamItem d fn a).sortText = some "0000".toList ∧
      (mkFilterParamItem fn a).sortText = some "0001".toList ∧
      (mkBuiltinItem a).sortText = none) := by
  refine ⟨?_, ?_, fun f => rfl, fun d fn a => ⟨rfl, rfl, rfl⟩⟩
  · intro hnone
    simp only [buildCompletions, hnone, List.nil_append]
    rw [show (fun f : JQFunction => some (mkFuncItem f)) = some ∘ mkFuncItem
      from rfl]
    rw [List.filterMap_eq_map]
  · intro cur hsome
    simp only [buildCompletions, hsome]
    rw [filterMap_guard_map (fun f => f.name == cur.name) mkFuncItem]

/-- Witness for `buildCompletions_fixed_order` at a concrete input. -/
theorem buildCompletions_fixed_order_witness :
    ((recoverDefinitions "def f($a; b):\ndef g:\n .".toList).find? (fun f =>
        decide (f.startLine ≤ 0) && decide (0 ≤ f.endLine)) =
      some ⟨['f'], ["$a".toList], [['b']], 0, 0⟩) ∧
    (buildCompletions BUILTINS "def f($a; b):\ndef g:\n .".toList 0 1 "$".toList =
      (⟨['f'], ["$a".toList], [['b']], 0, 0⟩ : JQFunction).valueArgs.map
        (mkValueParamItem (decide (0 < 1) && ("$".toList == "$".toList)) ['f']) ++
      (⟨['f'], ["$a".toList], [['b']], 0, 0⟩ : JQFunction).filterArgs.map
        (mkFilterParamItem ['f']) ++
      ((recoverDefinitions "def f($a; b):\ndef g:\n .".toList).filter
        (fun f => !(f.name == ['f']))).map mkFuncItem ++
      BUILTINS.map mkBuiltinItem) :=
  ⟨by decide,
    (buildCompletions_fixed_order BUILTINS "def f($a; b):\ndef g:\n .".toList
      0 1 "$".toList).2.1 ⟨['f'], ["$a".toList], [['b']], 0, 0⟩ (by decide)⟩

/-! ## Locating the line around an offset -/

theorem isIdentStart_ne_nl {c : Char} (h : isIdentStart c = true) : c ≠ '\n' := by
  intro hc
  rw [hc] at h
  exact absurd h (by decide)

theorem lastNL_none_spec {l : List Char} : ∀ {k : Nat}, lastNL l k = none →
    ∀ i, i ≤ k → l.getD i ' ' ≠ '\n' := by
  intro k
  induction k with
  | zero =>
    intro h i hi
    rw [Nat.le_zero.mp hi]
    rw [lastNL] at h
    intro hc
    rw [if_pos hc] at h
    cases h
  | succ k ih =>
    intro h i hi
    rw [lastNL] at h
    by_cases hc : l.getD (k + 1) ' ' = '\n'
    · rw [if_pos hc] at h; cases h
    · rw [if_neg hc] at h
      rcases Nat.eq_or_lt_of_le hi with rfl | hlt
      · exact hc
      · exact ih h i (by omega)

theorem lastNL_none_of {l : List Char} : ∀ {k : Nat},
    (∀ i, i ≤ k → l.getD i ' ' ≠ '\n') → lastNL l k = none := by
  intro k
  induction k with
  | zero =>
    intro h
    rw [lastNL, if_neg (h 0 (Nat.le_refl 0))]
  | succ k ih =>
    intro h
    rw [lastNL, if_neg (h (k + 1) (Nat.le_refl _))]
    exact ih fun i hi => h i (by omega)

theorem lastNL_some_spec {l : List Char} : ∀ {k j : Nat}, lastNL l k = some j →
    j ≤ k ∧ l.getD j ' ' = '\n' ∧ ∀ i, j < i → i ≤ k → l.getD i ' ' ≠ '\n' := by
  intro k
  induction k with
  | zero =>
    intro j h
    rw [lastNL] at h
    by_cases hc : l.getD 0 ' ' = '\n'
    · rw [if_pos hc] at h
      obtain rfl : 0 = j := by simpa using h
      exact ⟨Nat.le_refl _, hc, fun i h1 h2 => by omega⟩
    · rw [if_neg hc] at h; cases h
  | succ k ih =>
    intro j h
    rw [lastNL] at h
    by_cases hc : l.getD (k + 1) ' ' = '\n'
    · rw [if_pos hc] at h
      obtain rfl : k + 1 = j := by simpa using h
      exact ⟨Nat.le_refl _, hc, fun i h1 h2 => by omega⟩
    · rw [if_neg hc] at h
      obtain ⟨h1, h2, h3⟩ := ih h
      refine ⟨by omega, h2, fun i hi1 hi2 => ?_⟩
      rcases Nat.eq_or_lt_of_le hi2 with rfl | hlt
      · exact hc
      · exact h3 i hi1 (by omega)

theorem lastNL_at_nl {l : List Char} {m : Nat} (h : l.getD m ' ' = '\n') :
    lastNL l m = some m := by
  cases m with
  | zero => rw [lastNL, if_pos h]
  | succ m => rw [lastNL, if_pos h]

/-- The line start is at most the offset, and no character from the line
start up to the offset is a newline (given the offset's character is not). -/
theorem lineStartOf_spec {t : List Char} {off : Nat}
    (hnl : t.getD off ' ' ≠ '\n') :
    lineStartOf t off ≤ off ∧
      ∀ i, lineStartOf t off ≤ i → i ≤ off → t.getD i ' ' ≠ '\n' := by
  unfold lineStartOf
  cases h : lastNL t (off - 1) with
  | none =>
    refine ⟨Nat.zero_le _, fun i h0 hi => ?_⟩
    rcases Nat.eq_or_lt_of_le hi with rfl | hlt
    · exact hnl
    · exact lastNL_none_spec h i (by omega)
  | some i0 =>
    obtain ⟨hle, hnlat, hafter⟩ := lastNL_some_spec h
    have hoff1 : 1 ≤ off := by
      by_contra hc
      have : off = 0 := by omega
      subst this
      have : i0 = 0 := by omega
      subst this
      exact hnl hnlat
    refine ⟨show i0 + 1 ≤ off by omega, fun i h0 hi => ?_⟩
    have h0' : i0 + 1 ≤ i := h0
    rcases Nat.eq_or_lt_of_le hi with rfl | hlt
    · exact hnl
    · exact hafter i (by omega) (by omega)

theorem idxNL_none_spec : ∀ {l : List Char}, idxNL l = none → '\n' ∉ l := by
  intro l
  induction l with
  | nil => intro _ h; cases h
  | cons c cs ih =>
    intro h hmem
    rw [idxNL] at h
    by_cases hc : c = '\n'
    · rw [if_pos hc] at h; cases h
    · rw [if_neg hc] at h
      rcases List.mem_cons.mp hmem with heq | hmem'
      · exact hc heq.symm
      · exact ih (by cases hcs : idxNL cs <;> simp [hcs] at h ⊢) hmem'

theorem idxNL_some_take : ∀ {l : List Char} {j : Nat}, idxNL l = some j →
    l.take j = l.takeWhile (fun c => !(c == '\n')) := by
  intro l
  induction l with
  | nil => intro j h; cases h
  | cons c cs ih =>
    intro j h
    rw [idxNL] at h
    by_cases hc : c = '\n'
    · rw [if_pos hc] at h
      obtain rfl : 0 = j := by simpa using h
      rw [List.take_zero, List.takeWhile_cons_of_neg (by simp [hc])]
    · rw [if_neg hc] at h
      cases hcs : idxNL cs with
      | none => rw [hcs] at h; cases h
      | some j0 =>
        rw [hcs] at h
        obtain rfl : j0 + 1 = j := by simpa using h
        rw [List.take_succ_cons, List.takeWhile_cons_of_pos (by simp [hc]),
          ih hcs]

theorem idxNL_none_take : ∀ {l : List Char}, idxNL l = none →
    l = l.takeWhile (fun c => !(c == '\n')) := by
  intro l
  induction l with
  | nil => intro _; rfl
  | cons c cs ih =>
    intro h
    rw [idxNL] at h
    by_cases hc : c = '\n'
    · rw [if_pos hc] at h; cases h
    · rw [if_neg hc] at h
      rw [List.takeWhile_cons_of_pos (by simp [hc])]
      have hcs : idxNL cs = none := by
        cases hcs : idxNL cs <;> simp [hcs] at h ⊢
      rw [← ih hcs]

theorem drop_eq_getD_cons : ∀ {t : List Char} {n : Nat}, n < t.length →
    t.drop n = t.getD n ' ' :: t.drop (n + 1) := by
  intro t
  induction t with
  | nil => intro n h; simp at h
  | cons c cs ih =>
    intro n h
    cases n with
    | zero => simp
    | succ n =>
      rw [List.drop_succ_cons, ih (by simpa using h)]
      rfl

/-- The comment test examines exactly the text from the line start up to
(but excluding) the next newline. -/
theorem isInComment_eq_takeWhile {text : List Char} {off : Nat}
    (hoff : off < text.length) (hnl : text.getD off ' ' ≠ '\n') :
    isInComment text off =
      startsHash (((text.drop (lineStartOf text off)).takeWhile
        (fun c => !(c == '\n'))).dropWhile isWS) := by
  obtain ⟨hle, hrange⟩ := lineStartOf_spec hnl
  have hlslt : lineStartOf text off < text.length := by omega
  have hlsnl : text.getD (lineStartOf text off) ' ' ≠ '\n' :=
    hrange _ (Nat.le_refl _) hle
  have hdrop : text.drop (lineStartOf text off) =
      text.getD (lineStartOf text off) ' ' :: text.drop (lineStartOf text off + 1) :=
    drop_eq_getD_cons hlslt
  simp only [isInComment]
  cases hf : idxNL (text.drop (lineStartOf text off + 1)) with
  | some j0 =>
    have hfirst : firstNLfrom text (lineStartOf text off + 1) =
        some (lineStartOf text off + 1 + j0) := by
      unfold firstNLfrom; rw [hf]; rfl
    simp only [hfirst]
    have harith : lineStartOf text off + 1 + j0 - lineStartOf text off = j0 + 1 := by
      omega
    rw [harith, hdrop, List.take_succ_cons,
      List.takeWhile_cons_of_pos (by simpa using hlsnl), idxNL_some_take hf]
  | none =>
    have hfirst : firstNLfrom text (lineStartOf text off + 1) = none := by
      unfold firstNLfrom; rw [hf]; rfl
    simp only [hfirst]
    rw [List.take_of_length_le (by simp [List.length_drop]), hdrop,
      List.takeWhile_cons_of_pos (by simpa using hlsnl), ← idxNL_none_take hf]

/-! ## Relating `splitRN` lines to raw-text slices -/

theorem getD_append_len {α : Type} (l₁ l₂ : List α) (d : α) (k : Nat) :
    (l₁ ++ l₂).getD (l₁.length + k) d = l₂.getD k d := by
  induction l₁ with
  | nil => simp
  | cons a l₁ ih =>
    have : (a :: l₁).length + k = (l₁.length + k) + 1 := by simp; omega
    rw [this, List.cons_append]
    simpa using ih

theorem getD_append_lt {α : Type} (l₁ l₂ : List α) (d : α) {k : Nat}
    (h : k < l₁.length) : (l₁ ++ l₂).getD k d = l₁.getD k d := by
  induction l₁ generalizing k with
  | nil => simp at h
  | cons a l₁ ih =>
    cases k with
    | zero => rfl
    | succ k =>
      rw [List.cons_append, List.getD_cons_succ, List.getD_cons_succ]
      exact ih (by simpa using h)

theorem drop_append_len {α : Type} (l₁ l₂ : List α) (k : Nat) :
    (l₁ ++ l₂).drop (l₁.length + k) = l₂.drop k := by
  induction l₁ with
  | nil => simp
  | cons a l₁ ih =>
    have : (a :: l₁).length + k = (l₁.length + k) + 1 := by simp; omega
    rw [this, List.cons_append, List.drop_succ_cons]
    exact ih

theorem getD_ne_of_not_mem {t : List Char} (h : '\n' ∉ t) (i : Nat) :
    t.getD i ' ' ≠ '\n' := by
  intro hc
  rw [List.getD_eq_getElem?_getD] at hc
  cases hg : t[i]? with
  | none => rw [hg] at hc; cases hc
  | some c =>
    rw [hg] at hc
    simp only [Option.getD_some] at hc
    subst hc
    have hi : i < t.length := by
      by_contra hge
      rw [List.getElem?_eq_none (by omega)] at hg
      cases hg
    rw [List.getElem?_eq_getElem hi] at hg
    have hti : t[i] = '\n' := by simpa using hg
    exact h (hti ▸ List.getElem_mem hi)

theorem no_nl_take {t : List Char} {p : Nat}
    (h : ∀ i, i < p → t.getD i ' ' ≠ '\n') : '\n' ∉ t.take p := by
  intro hmem
  obtain ⟨i, hi, heq⟩ := List.getElem_of_mem hmem
  have hip : i < p := lt_of_lt_of_le hi (by simp [List.length_take])
  have hit : i < t.length := lt_of_lt_of_le hi (by simp [List.length_take])
  refine h i hip ?_
  rw [List.getD_eq_getElem _ _ hit]
  rw [List.getElem_take] at heq
  exact heq

theorem takeWhile_all {p : Char → Bool} {l : List Char}
    (h : ∀ a ∈ l, p a = true) : l.takeWhile p = l := by
  induction l with
  | nil => rfl
  | cons c cs ih =>
    rw [List.takeWhile_cons_of_pos (h c (List.mem_cons_self c cs))]
    rw [ih fun a ha => h a (List.mem_cons_of_mem c ha)]

theorem takeWhile_no_nl_append {pre rest : List Char} (h : '\n' ∉ pre) :
    (pre ++ '\n' :: rest).takeWhile (fun c => !(c == '\n')) = pre := by
  induction pre with
  | nil => rw [List.nil_append, List.takeWhile_cons_of_neg (by simp)]
  | cons c pre ih =>
    have hc : c ≠ '\n' := fun hc => h (hc ▸ List.mem_cons_self c pre)
    rw [List.cons_append, List.takeWhile_cons_of_pos (by simpa using hc)]
    rw [ih fun hm => h (List.mem_cons_of_mem c hm)]

theorem splitNL_no_nl {l : List Char} (h : '\n' ∉ l) : splitNL l = [l] := by
  induction l with
  | nil => rfl
  | cons c cs ih =>
    have hc : c ≠ '\n' := fun hc => h (hc ▸ List.mem_cons_self c cs)
    rw [splitNL, if_neg hc, ih fun hm => h (List.mem_cons_of_mem c hm)]

theorem splitNL_append {pre rest : List Char} (h : '\n' ∉ pre) :
    splitNL (pre ++ '\n' :: rest) = pre :: splitNL rest := by
  induction pre with
  | nil => rw [List.nil_append, splitNL, if_pos rfl]
  | cons c pre ih =>
    have hc : c ≠ '\n' := fun hc => h (hc ▸ List.mem_cons_self c pre)
    rw [List.cons_append, splitNL, if_neg hc,
      ih fun hm => h (List.mem_cons_of_mem c hm)]

theorem splitRN_no_nl {l : List Char} (h : '\n' ∉ l) : splitRN l = [l] := by
  rw [splitRN, splitNL_no_nl h]
  rfl

theorem splitRN_append {pre rest : List Char} (h : '\n' ∉ pre) :
    splitRN (pre ++ '\n' :: rest) = dropCR pre :: splitRN rest := by
  rw [splitRN, splitNL_append h]
  cases hs : splitNL rest with
  | nil => exact absurd hs (splitNL_ne_nil rest)
  | cons x xs => rw [mapInitCR, ← hs]; rfl

/-! ## The hash test through trimming and carriage-return stripping -/

theorem dropWhile_cons_head {p : Char → Bool} :
    ∀ {l : List Char} {c : Char} {m : List Char},
    l.dropWhile p = c :: m → p c = false := by
  intro l
  induction l with
  | nil => intro c m h; cases h
  | cons a l ih =>
    intro c m h
    by_cases ha : p a
    · rw [List.dropWhile_cons_of_pos ha] at h
      exact ih h
    · rw [List.dropWhile_cons_of_neg ha] at h
      obtain ⟨rfl, -⟩ := List.cons.injEq .. ▸ h
      · exact Bool.eq_false_iff.mpr ha

theorem reverse_dropWhile_head {u : List Char} {c : Char}
    (hc : isWS c = false) :
    ((u ++ [c]).dropWhile isWS).reverse.head? = some c := by
  induction u with
  | nil =>
    rw [List.nil_append, List.dropWhile_cons_of_neg (by simp [hc])]
    rfl
  | cons a u ih =>
    by_cases ha : isWS a
    · rw [List.cons_append, List.dropWhile_cons_of_pos ha]
      exact ih
    · rw [List.cons_append, List.dropWhile_cons_of_neg ha,
        List.reverse_cons, List.reverse_append]
      rfl

theorem startsHash_trimL (l : Str) :
    startsHash (trimL l) = startsHash (l.dropWhile isWS) := by
  unfold trimL
  cases hm : l.dropWhile isWS with
  | nil => rfl
  | cons c m =>
    have hc : isWS c = false := dropWhile_cons_head hm
    have hrev : (c :: m).reverse = m.reverse ++ [c] := by
      rw [List.reverse_cons]
    rw [hrev]
    unfold startsHash
    rw [reverse_dropWhile_head hc]
    rfl

theorem startsHash_dropWhile_cr (u : Str) :
    startsHash ((u ++ ['\r']).dropWhile isWS) = startsHash (u.dropWhile isWS) := by
  induction u with
  | nil =>
    rw [List.nil_append, List.dropWhile_cons_of_pos (by decide)]
  | cons a u ih =>
    by_cases ha : isWS a
    · rw [List.cons_append, List.dropWhile_cons_of_pos ha,
        List.dropWhile_cons_of_pos ha]
      exact ih
    · rw [List.cons_append, List.dropWhile_cons_of_neg ha,
        List.dropWhile_cons_of_neg ha]
      rfl

theorem startsHash_dropWhile_dropCR (l : Str) :
    startsHash ((dropCR l).dropWhile isWS) = startsHash (l.dropWhile isWS) := by
  unfold dropCR
  by_cases h : l.getLast? = some '\r'
  · rw [if_pos h]
    have hne : l ≠ [] := by
      intro hnil; rw [hnil] at h; cases h
    have hlast : l.getLast hne = '\r' := by
      rw [List.getLast?_eq_getLast l hne] at h
      simpa using h
    have hdec : l = l.dropLast ++ ['\r'] := by
      conv_lhs => rw [← List.dropLast_append_getLast hne]
      rw [hlast]
    conv_rhs => rw [hdec]
    rw [startsHash_dropWhile_cr]
  · rw [if_neg h]

theorem idxNL_some_spec : ∀ {l : List Char} {p : Nat}, idxNL l = some p →
    p < l.length ∧ l.getD p ' ' = '\n' ∧ ∀ i, i < p → l.getD i ' ' ≠ '\n' := by
  intro l
  induction l with
  | nil => intro p h; cases h
  | cons c cs ih =>
    intro p h
    rw [idxNL] at h
    by_cases hc : c = '\n'
    · rw [if_pos hc] at h
      obtain rfl : 0 = p := by simpa using h
      exact ⟨by simp, hc, fun i hi => by omega⟩
    · rw [if_neg hc] at h
      cases hcs : idxNL cs with
      | none => rw [hcs] at h; cases h
      | some p0 =>
        rw [hcs] at h
        obtain rfl : p0 + 1 = p := by simpa using h
        obtain ⟨h1, h2, h3⟩ := ih hcs
        refine ⟨by simp; omega, by rw [List.getD_cons_succ]; exact h2,
          fun i hi => ?_⟩
        cases i with
        | zero => simpa using hc
        | succ i =>
          rw [List.getD_cons_succ]
          exact h3 i (by omega)

theorem lineOf_zero {t : List Char} {off : Nat}
    (h : ∀ i, i < off → t.getD i ' ' ≠ '\n') : lineOf t off = 0 := by
  unfold lineOf
  rw [List.count_eq_zero]
  exact no_nl_take h

theorem lineOf_append {pre rest : List Char} {off : Nat} (hpre : '\n' ∉ pre)
    (hoff : pre.length + 1 ≤ off) :
    lineOf (pre ++ '\n' :: rest) off =
      1 + lineOf rest (off - (pre.length + 1)) := by
  unfold lineOf
  have hdecomp : (pre ++ '\n' :: rest).take off =
      pre ++ '\n' :: rest.take (off - (pre.length + 1)) := by
    conv_lhs => rw [show off = pre.length + 1 + (off - (pre.length + 1)) by omega]
    rw [List.take_append_eq_append_take,
      List.take_of_length_le (by omega)]
    congr 1
    rw [show pre.length + 1 + (off - (pre.length + 1)) - pre.length =
      (off - (pre.length + 1)) + 1 by omega, List.take_succ_cons]
  rw [hdecomp, List.count_append, List.count_eq_zero.mpr hpre,
    List.count_cons_self]
  omega

theorem lastNL_append {pre rest : List Char} (_hpre : '\n' ∉ pre) :
    ∀ k : Nat, lastNL (pre ++ '\n' :: rest) (pre.length + 1 + k) =
      some (match lastNL rest k with
        | some j => pre.length + 1 + j
        | none => pre.length) := by
  have hsep : (pre ++ '\n' :: rest).getD pre.length ' ' = '\n' := by
    simpa using getD_append_len pre ('\n' :: rest) ' ' 0
  have hget : ∀ m, (pre ++ '\n' :: rest).getD (pre.length + 1 + m) ' ' =
      rest.getD m ' ' := by
    intro m
    have h := getD_append_len pre ('\n' :: rest) ' ' (1 + m)
    rw [show pre.length + 1 + m = pre.length + (1 + m) by omega, h,
      show (1 : Nat) + m = m + 1 by omega, List.getD_cons_succ]
  intro k
  induction k with
  | zero =>
    rw [show pre.length + 1 + 0 = pre.length + 1 by omega]
    have hc0 : (pre ++ '\n' :: rest).getD (pre.length + 1) ' ' =
        rest.getD 0 ' ' := by simpa using hget 0
    have hL : lastNL (pre ++ '\n' :: rest) (pre.length + 1) =
        if (pre ++ '\n' :: rest).getD (pre.length + 1) ' ' = '\n'
          then some (pre.length + 1)
          else lastNL (pre ++ '\n' :: rest) pre.length := rfl
    have hR : lastNL rest 0 =
        if rest.getD 0 ' ' = '\n' then some 0 else none := rfl
    rw [hL, hR]
    by_cases h0 : rest.getD 0 ' ' = '\n'
    · rw [if_pos (by rw [hc0]; exact h0), if_pos h0]
    · rw [if_neg (by rw [hc0]; exact h0), if_neg h0, lastNL_at_nl hsep]
  | succ k ih =>
    have hL : lastNL (pre ++ '\n' :: rest) ((pre.length + 1 + k) + 1) =
        if (pre ++ '\n' :: rest).getD ((pre.length + 1 + k) + 1) ' ' = '\n'
          then some ((pre.length + 1 + k) + 1)
          else lastNL (pre ++ '\n' :: rest) (pre.length + 1 + k) := rfl
    have hR : lastNL rest (k + 1) =
        if rest.getD (k + 1) ' ' = '\n' then some (k + 1) else lastNL rest k :=
      rfl
    have hck : (pre ++ '\n' :: rest).getD ((pre.length + 1 + k) + 1) ' ' =
        rest.getD (k + 1) ' ' := by
      have h := hget (k + 1)
      rw [show pre.length + 1 + (k + 1) = (pre.length + 1 + k) + 1 by omega] at h
      exact h
    rw [show pre.length + 1 + (k + 1) = (pre.length + 1 + k) + 1 by omega,
      hL, hR]
    by_cases hk : rest.getD (k + 1) ' ' = '\n'
    · rw [if_pos (by rw [hck]; exact hk), if_pos hk]
      show some (pre.length + 1 + k + 1) = some (pre.length + 1 + (k + 1))
      exact congrArg some (by omega)
    · rw [if_neg (by rw [hck]; exact hk), if_neg hk]
      exact ih

theorem lineStartOf_append {pre rest : List Char} {off : Nat}
    (hpre : '\n' ∉ pre) (hoff : pre.length + 1 ≤ off)
    (hnl : (pre ++ '\n' :: rest).getD off ' ' ≠ '\n') :
    lineStartOf (pre ++ '\n' :: rest) off =
      pre.length + 1 + lineStartOf rest (off - (pre.length + 1)) := by
  have hsep : (pre ++ '\n' :: rest).getD pre.length ' ' = '\n' := by
    simpa using getD_append_len pre ('\n' :: rest) ' ' 0
  rcases Nat.eq_or_lt_of_le hoff with heq | hlt
  · subst heq
    unfold lineStartOf
    rw [show pre.length + 1 - 1 = pre.length by omega, lastNL_at_nl hsep,
      show pre.length + 1 - (pre.length + 1) = 0 by omega]
    have h0 : rest.getD 0 ' ' ≠ '\n' := by
      intro hc
      apply hnl
      have h := getD_append_len pre ('\n' :: rest) ' ' 1
      rw [show pre.length + 1 = pre.length + 1 + 0 by omega]
      rw [show pre.length + 1 + 0 = pre.length + 1 by omega, h]
      simpa using hc
    rw [show lastNL rest (0 - 1) = none from by
      rw [show (0 : Nat) - 1 = 0 by omega, lastNL, if_neg h0]]
    show pre.length + 1 = pre.length + 1 + 0
    omega
  · unfold lineStartOf
    rw [show off - 1 = pre.length + 1 + (off - pre.length - 2) by omega,
      lastNL_append hpre,
      show off - (pre.length + 1) - 1 = off - pre.length - 2 by omega]
    cases hrk : lastNL rest (off - pre.length - 2) with
    | some j =>
      show pre.length + 1 + j + 1 = pre.length + 1 + (j + 1)
      omega
    | none =>
      show pre.length + 1 = pre.length + 1 + 0
      omega

/-- Relates the line that `splitRN` assigns to an offset with the slice of
the raw text between the surrounding newlines: their leading-whitespace-
then-hash tests agree (the two can differ only by a trailing carriage
return, which is whitespace). -/
theorem splitRN_line_hash :
    ∀ (n : Nat) (text : List Char), text.length ≤ n →
    ∀ (off : Nat), off < text.length → text.getD off ' ' ≠ '\n' →
    startsHash (((splitRN text).getD (lineOf text off) []).dropWhile isWS) =
      startsHash (((text.drop (lineStartOf text off)).takeWhile
        (fun c => !(c == '\n'))).dropWhile isWS) := by
  intro n
  induction n with
  | zero => intro text hlen off hoff _; omega
  | succ n ih =>
    intro text hlen off hoff hnl
    cases hidx : idxNL text with
    | none =>
      have hmem : '\n' ∉ text := idxNL_none_spec hidx
      have hgd : ∀ i, text.getD i ' ' ≠ '\n' := getD_ne_of_not_mem hmem
      have h0 : lineOf text off = 0 := lineOf_zero fun i _ => hgd i
      have hls : lineStartOf text off = 0 := by
        unfold lineStartOf
        rw [lastNL_none_of fun i _ => hgd i]
      have htw : text.takeWhile (fun c => !(c == '\n')) = text :=
        takeWhile_all fun a ha => by
          have : a ≠ '\n' := fun hc => hmem (hc ▸ ha)
          simpa using this
      rw [h0, hls, splitRN_no_nl hmem, List.drop_zero, htw]
      rfl
    | some p =>
      obtain ⟨hplen, hpnl, hpbefore⟩ := idxNL_some_spec hidx
      set pre := text.take p with hpre_def
      have hprenl : '\n' ∉ pre := no_nl_take hpbefore
      have hprelen : pre.length = p := by
        rw [hpre_def, List.length_take]; omega
      have hdecomp : text = pre ++ '\n' :: text.drop (p + 1) := by
        conv_lhs => rw [← List.take_append_drop p text]
        congr 1
        rw [drop_eq_getD_cons hplen, hpnl]
      set rest := text.drop (p + 1) with hrest_def
      rcases Nat.lt_trichotomy off p with hop | hop | hop
      · have h0 : lineOf text off = 0 :=
          lineOf_zero fun i hi => hpbefore i (by omega)
        have hls : lineStartOf text off = 0 := by
          unfold lineStartOf
          rw [lastNL_none_of fun i hi => hpbefore i (by omega)]
        rw [h0, hls, List.drop_zero]
        conv_lhs => rw [hdecomp]
        conv_rhs => rw [hdecomp]
        rw [splitRN_append hprenl, takeWhile_no_nl_append hprenl]
        show startsHash ((dropCR pre).dropWhile isWS) =
          startsHash (pre.dropWhile isWS)
        exact startsHash_dropWhile_dropCR pre
      · exact absurd (show text.getD off ' ' = '\n' by rw [hop]; exact hpnl) hnl
      · have hrestlen : rest.length = text.length - (p + 1) := by
          rw [hrest_def, List.length_drop]
        have hoff'lt : off - (p + 1) < rest.length := by omega
        have hget : text.getD off ' ' = rest.getD (off - (p + 1)) ' ' := by
          have h := getD_append_len pre ('\n' :: rest) ' ' (1 + (off - (p + 1)))
          rw [show pre.length + (1 + (off - (p + 1))) = off by omega] at h
          rw [show (1 : Nat) + (off - (p + 1)) = (off - (p + 1)) + 1 by omega,
            List.getD_cons_succ] at h
          conv_lhs => rw [hdecomp]
          exact h
        have hnl' : rest.getD (off - (p + 1)) ' ' ≠ '\n' := by
          rw [← hget]; exact hnl
        have hih := ih rest (by omega) (off - (p + 1)) hoff'lt hnl'
        have hsplit : (splitRN text).getD (lineOf text off) [] =
            (splitRN rest).getD (lineOf rest (off - (p + 1))) [] := by
          conv_lhs => rw [hdecomp]
          rw [splitRN_append hprenl, lineOf_append hprenl (by omega),
            show (1 : Nat) + lineOf rest (off - (pre.length + 1)) =
              (lineOf rest (off - (pre.length + 1))) + 1 by omega,
            List.getD_cons_succ, show pre.length + 1 = p + 1 by omega]
        have hdrop2 : text.drop (lineStartOf text off) =
            rest.drop (lineStartOf rest (off - (p + 1))) := by
          conv_lhs => rw [hdecomp]
          rw [lineStartOf_append hprenl (by omega)
              (by rw [← hdecomp]; exact hnl),
            show pre.length + 1 +
                lineStartOf rest (off - (pre.length + 1)) =
              pre.length + (1 + lineStartOf rest (off - (pre.length + 1)))
              by omega,
            drop_append_len,
            show (1 : Nat) + lineStartOf rest (off - (pre.length + 1)) =
              (lineStartOf rest (off - (pre.length + 1))) + 1 by omega,
            List.drop_succ_cons, show pre.length + 1 = p + 1 by omega]
        rw [hsplit, hdrop2]
        exact hih

/-- The bridge: for any offset whose character is not a newline, the
source's offset-based comment test agrees with "the trimmed text of the
offset's line starts with `#`". -/
theorem isInComment_iff_line {text : List Char} {off : Nat}
    (hoff : off < text.length) (hnl : text.getD off ' ' ≠ '\n') :
    isInComment text off =
      startsHash (trimL ((splitRN text).getD (lineOf text off) [])) := by
  rw [isInComment_eq_takeWhile hoff hnl, startsHash_trimL,
    splitRN_line_hash text.length text (Nat.le_refl _) off hoff hnl]

/-! ## Tokens: their offsets are in range, start an identifier, and are
strictly increasing -/

theorem dropWhile_eq_drop (p : Char → Bool) (l : List Char) :
    l.dropWhile p = l.drop (l.takeWhile p).length := by
  induction l with
  | nil => rfl
  | cons c cs ih =>
    by_cases hc : p c
    · rw [List.dropWhile_cons_of_pos hc, List.takeWhile_cons_of_pos hc,
        List.length_cons, List.drop_succ_cons, ih]
    · rw [List.dropWhile_cons_of_neg hc, List.takeWhile_cons_of_neg hc]
      rfl

theorem getD_drop (l : List Char) : ∀ (n k : Nat) (d : Char),
    (l.drop n).getD k d = l.getD (n + k) d := by
  induction l with
  | nil => intro n k d; simp
  | cons c cs ih =>
    intro n k d
    cases n with
    | zero => simp
    | succ n =>
      rw [List.drop_succ_cons, ih n k d,
        show n + 1 + k = (n + k) + 1 by omega, List.getD_cons_succ]

theorem tokenizeAux_mem_le : ∀ (fuel : Nat) (l : List Char) (pos : Nat)
    (t : Token), t ∈ tokenizeAux fuel l pos → pos ≤ t.offset := by
  intro fuel
  induction fuel with
  | zero => intro l pos t ht; simp [tokenizeAux] at ht
  | succ fuel ih =>
    intro l pos t ht
    cases l with
    | nil => simp [tokenizeAux] at ht
    | cons c cs =>
      rw [tokenizeAux] at ht
      by_cases hc : isIdentStart c
      · rw [if_pos hc] at ht
        rcases List.mem_cons.mp ht with rfl | ht'
        · exact Nat.le_refl _
        · have := ih _ _ t ht'
          omega
      · rw [if_neg hc] at ht
        have := ih _ _ t ht
        omega

theorem tokenizeAux_mem_start : ∀ (fuel : Nat) (l : List Char) (pos : Nat)
    (t : Token), t ∈ tokenizeAux fuel l pos →
    ∃ k, k < l.length ∧ t.offset = pos + k ∧
      isIdentStart (l.getD k ' ') = true := by
  intro fuel
  induction fuel with
  | zero => intro l pos t ht; simp [tokenizeAux] at ht
  | succ fuel ih =>
    intro l pos t ht
    cases l with
    | nil => simp [tokenizeAux] at ht
    | cons c cs =>
      rw [tokenizeAux] at ht
      by_cases hc : isIdentStart c
      · rw [if_pos hc] at ht
        rcases List.mem_cons.mp ht with rfl | ht'
        · exact ⟨0, by simp, by simp, by simpa using hc⟩
        · obtain ⟨k', hk1, hk2, hk3⟩ := ih _ _ t ht'
          have hdw := dropWhile_eq_drop isIdentChar cs
          have hlen : (cs.dropWhile isIdentChar).length =
              cs.length - (cs.takeWhile isIdentChar).length := by
            rw [hdw, List.length_drop]
          refine ⟨1 + ((cs.takeWhile isIdentChar).length + k'), ?_, ?_, ?_⟩
          · simp only [List.length_cons]
            omega
          · rw [hk2]; omega
          · rw [show (1 : Nat) + ((cs.takeWhile isIdentChar).length + k') =
              ((cs.takeWhile isIdentChar).length + k') + 1 by omega,
              List.getD_cons_succ, ← getD_drop, ← hdw]
            exact hk3
      · rw [if_neg hc] at ht
        obtain ⟨k', hk1, hk2, hk3⟩ := ih _ _ t ht
        refine ⟨k' + 1, by simpa using hk1, by omega, ?_⟩
        rw [List.getD_cons_succ]
        exact hk3

theorem tokenizeAux_pairwise : ∀ (fuel : Nat) (l : List Char) (pos : Nat),
    List.Pairwise (fun a b : Token => a.offset < b.offset)
      (tokenizeAux fuel l pos) := by
  intro fuel
  induction fuel with
  | zero => intro l pos; simp [tokenizeAux]
  | succ fuel ih =>
    intro l pos
    cases l with
    | nil => simp [tokenizeAux]
    | cons c cs =>
      rw [tokenizeAux]
      by_cases hc : isIdentStart c
      · rw [if_pos hc]
        refine List.pairwise_cons.mpr ⟨fun t ht => ?_, ih _ _⟩
        have := tokenizeAux_mem_le _ _ _ t ht
        show pos < t.offset
        omega
      · rw [if_neg hc]
        exact ih _ _

/-- Filtering the classified spans by a token's offset isolates exactly the
span (if any) that this token produced, because token offsets are strictly
increasing. -/
theorem filter_offset_filterMap {g : Token → Option Span}
    (hg : ∀ u s, g u = some s → s.offset = u.offset) :
    ∀ (l : List Token),
    List.Pairwise (fun a b : Token => a.offset < b.offset) l →
    ∀ t ∈ l, (l.filterMap g).filter (fun s => s.offset == t.offset) =
      (g t).toList := by
  intro l
  induction l with
  | nil => intro _ t ht; cases ht
  | cons a l ih =>
    intro hp t ht
    obtain ⟨hhead, htail⟩ := List.pairwise_cons.mp hp
    rw [List.filterMap_cons]
    rcases List.mem_cons.mp ht with rfl | ht'
    · have htl : (l.filterMap g).filter (fun s => s.offset == t.offset) = [] := by
        rw [List.filter_eq_nil_iff]
        intro s hs
        obtain ⟨u, hu, hgu⟩ := List.mem_filterMap.mp hs
        have h1 : s.offset = u.offset := hg u s hgu
        have h2 : t.offset < u.offset := hhead u hu
        simp only [beq_iff_eq]
        omega
      cases hgt : g t with
      | none => simpa using htl
      | some s =>
        have hso : s.offset = t.offset := hg t s hgt
        rw [List.filter_cons, if_pos (by simpa using hso), htl]
        rfl
    · have hlt : a.offset < t.offset := hhead t ht'
      have hr := ih htail t ht'
      cases hga : g a with
      | none => exact hr
      | some s =>
        have hso : s.offset = a.offset := hg a s hga
        rw [List.filter_cons, if_neg (by simp only [hso, beq_iff_eq]; omega)]
        exact hr

/-- C6: every span the classifier emits lies on a line whose trimmed text
does not start with `#` — equivalently, a token on a comment line is never
classified. -/
theorem comment_line_token_not_classified (builtins : List Str) (text : Str)
    (fns : List JQFunction) (s : Span)
    (hs : s ∈ classifyTokens builtins text fns) :
    startsHash (trimL ((splitRN text).getD (lineOf text s.offset) [])) =
      false := by
  obtain ⟨t, ht, hic, hcw, hoff, hword⟩ := classifyTokens_mem hs
  obtain ⟨k, hk1, hk2, hk3⟩ := tokenizeAux_mem_start text.length text 0 t ht
  have hoff' : t.offset < text.length := by omega
  have hnl : text.getD t.offset ' ' ≠ '\n' := by
    rw [show t.offset = k from by omega]
    exact isIdentStart_ne_nl hk3
  rw [hoff, ← isInComment_iff_line hoff' hnl]
  exact hic

/-- Witness for `comment_line_token_not_classified`. -/
theorem comment_line_token_not_classified_witness :
    ((⟨0, ['b'], Category.functionBuiltin⟩ : Span) ∈
      classifyTokens [['b']] "b".toList []) ∧
    startsHash (trimL ((splitRN "b".toList).getD
      (lineOf "b".toList
        (⟨0, ['b'], Category.functionBuiltin⟩ : Span).offset) [])) = false :=
  ⟨by decide,
    comment_line_token_not_classified [['b']] "b".toList [] _ (by decide)⟩

/-- C10: a token on a line whose trimmed text does not start with `#` is
classified exactly by the priority chain — a `#` occurring mid-line before
the token never suppresses classification. -/
theorem midline_hash_no_suppression (builtins : List Str) (text : Str)
    (fns : List JQFunction) (t : Token) (ht : t ∈ tokenize text)
    (hline : startsHash (trimL ((splitRN text).getD
      (lineOf text t.offset) [])) = false) :
    (classifyTokens builtins text fns).filter
        (fun s => s.offset == t.offset) =
      match classifyWord builtins fns (allParams fns)
          (lineOf text t.offset) t.word with
      | some c => [⟨t.offset, t.word, c⟩]
      | none => [] := by
  obtain ⟨k, hk1, hk2, hk3⟩ := tokenizeAux_mem_start text.length text 0 t ht
  have hoff' : t.offset < text.length := by omega
  have hnl : text.getD t.offset ' ' ≠ '\n' := by
    rw [show t.offset = k from by omega]
    exact isIdentStart_ne_nl hk3
  have hic : isInComment text t.offset = false := by
    rw [isInComment_iff_line hoff' hnl]
    exact hline
  unfold classifyTokens
  rw [filter_offset_filterMap
    (by
      intro u s hgu
      by_cases hi : isInComment text u.offset
      · rw [if_pos hi] at hgu; cases hgu
      · rw [if_neg hi] at hgu
        cases hcw : classifyWord builtins fns (allParams fns)
            (lineOf text u.offset) u.word with
        | none => rw [hcw] at hgu; cases hgu
        | some c =>
          rw [hcw] at hgu
          simp only [Option.map_some', Option.some.injEq] at hgu
          rw [← hgu])
    (tokenize text) (tokenizeAux_pairwise _ _ _) t ht]
  rw [if_neg (by rw [hic]; simp)]
  cases hcw : classifyWord builtins fns (allParams fns)
      (lineOf text t.offset) t.word with
  | some c => rfl
  | none => rfl

/-- Witness for `midline_hash_no_suppression`: the line `a #b` has a
mid-line `#`, yet the token `b` after it is still classified (as a
built-in here). -/
theorem midline_hash_no_suppression_witness :
    ((⟨3, ['b']⟩ : Token) ∈ tokenize "a #b".toList) ∧
    (startsHash (trimL ((splitRN "a #b".toList).getD
      (lineOf "a #b".toList 3) [])) = false) ∧
    ((classifyTokens [['b']] "a #b".toList []).filter
        (fun s => s.offset == (3 : Nat)) =
      match classifyWord [['b']] [] (allParams [])
          (lineOf "a #b".toList 3) ['b'] with
      | some c => [⟨3, ['b'], c⟩]
      | none => []) :=
  ⟨by decide, by decide,
    midline_hash_no_suppression [['b']] "a #b".toList [] ⟨3, ['b']⟩
      (by decide) (by decide)⟩

/-! ## Parameter priority and the enclosing definition -/

/-- Counterexample to C4 as stated: in
`def a(x):\n  def b(length):\n    length`, the token `length` at offset 31
(line 2) lies inside the range of the recovered definition `b`, matches
`b`'s filter parameter `length`, and `length` is a built-in name — yet no
parameter span is emitted for it: the enclosing definition resolved by the
classifier is the *first* record whose range contains the line (`a` here),
and the token is not one of `a`'s parameters (nor classified at all, since
the built-in branch is shadow-suppressed). -/
theorem parameter_priority_any_record_counterexample :
    ((⟨31, "length".toList⟩ : Token) ∈
      tokenize "def a(x):\n  def b(length):\n    length".toList) ∧
    (startsHash (trimL ((splitRN
      "def a(x):\n  def b(length):\n    length".toList).getD
      (lineOf "def a(x):\n  def b(length):\n    length".toList 31) [])) =
      false) ∧
    (∃ f ∈ recoverDefinitions
        "def a(x):\n  def b(length):\n    length".toList,
      f.startLine ≤ lineOf
          "def a(x):\n  def b(length):\n    length".toList 31 ∧
        lineOf "def a(x):\n  def b(length):\n    length".toList 31 ≤
          f.endLine ∧
        ("length".toList ∈ f.valueArgs.map stripSigil ∨
          "length".toList ∈ f.filterArgs)) ∧
    ("length".toList ∈ BUILTINS) ∧
    (∀ s ∈ classifyTokens BUILTINS
        "def a(x):\n  def b(length):\n    length".toList
        (recoverDefinitions
          "def a(x):\n  def b(length):\n    length".toList),
      ¬(s.offset = 31 ∧ s.cat = Category.parameter)) := by
  decide

/-- C4 (amended): for a token not on a comment line, when the *enclosing*
definition — the first recovered record whose `[startLine, endLine]` range
contains the token's line — has a parameter matching the token's text
(value parameters with the sigil stripped, filter parameters verbatim), the
classifier emits a parameter span for the token; in particular this holds
when the token's text is also a built-in name. -/
theorem parameter_priority_enclosing (builtins : List Str) (text : Str)
    (t : Token) (f : JQFunction) (ht : t ∈ tokenize text)
    (hline : startsHash (trimL ((splitRN text).getD
      (lineOf text t.offset) [])) = false)
    (hctx : getContextFunction (recoverDefinitions text)
      (lineOf text t.offset) = some f)
    (hpar : t.word ∈ f.valueArgs.map stripSigil ∨ t.word ∈ f.filterArgs)
    (_hbuiltin : t.word ∈ builtins) :
    (⟨t.offset, t.word, Category.parameter⟩ : Span) ∈
      classifyTokens builtins text (recoverDefinitions text) := by
  obtain ⟨k, hk1, hk2, hk3⟩ := tokenizeAux_mem_start text.length text 0 t ht
  have hoff' : t.offset < text.length := by omega
  have hnl : text.getD t.offset ' ' ≠ '\n' := by
    rw [show t.offset = k from by omega]
    exact isIdentStart_ne_nl hk3
  have hic : isInComment text t.offset = false := by
    rw [isInComment_iff_line hoff' hnl]
    exact hline
  have hip : isParamWord (recoverDefinitions text) (lineOf text t.offset)
      t.word = true := by
    unfold isParamWord
    rw [hctx]
    rcases hpar with hv | hfa
    · obtain ⟨a, ha, hsa⟩ := List.mem_map.mp hv
      refine Bool.or_eq_true _ _ |>.mpr (Or.inl ?_)
      rw [List.any_eq_true]
      exact ⟨a, ha, by simpa using hsa⟩
    · refine Bool.or_eq_true _ _ |>.mpr (Or.inr ?_)
      rw [List.any_eq_true]
      exact ⟨t.word, hfa, by simp⟩
  have hcw : classifyWord builtins (recoverDefinitions text)
      (allParams (recoverDefinitions text)) (lineOf text t.offset) t.word =
      some Category.parameter := by
    unfold classifyWord
    rw [if_pos hip]
  unfold classifyTokens
  refine List.mem_filterMap.mpr ⟨t, ht, ?_⟩
  rw [if_neg (by rw [hic]; simp), hcw]
  rfl

/-- Witness for `parameter_priority_enclosing`: `map` is a filter parameter
of the enclosing `f` and a built-in name; its occurrence in the body is
classified as a parameter. -/
theorem parameter_priority_enclosing_witness :
    ((⟨14, "map".toList⟩ : Token) ∈ tokenize "def f(map):\n  map".toList) ∧
    (startsHash (trimL ((splitRN "def f(map):\n  map".toList).getD
      (lineOf "def f(map):\n  map".toList 14) [])) = false) ∧
    (getContextFunction
        (recoverDefinitions "def f(map):\n  map".toList)
        (lineOf "def f(map):\n  map".toList 14) =
      some ⟨['f'], [], ["map".toList], 0, 1⟩) ∧
    ("map".toList ∈
      (⟨['f'], [], ["map".toList], 0, 1⟩ : JQFunction).filterArgs) ∧
    ("map".toList ∈ BUILTINS) ∧
    ((⟨14, "map".toList, Category.parameter⟩ : Span) ∈
      classifyTokens BUILTINS "def f(map):\n  map".toList
        (recoverDefinitions "def f(map):\n  map".toList)) :=
  ⟨by decide, by decide, by decide, by decide, by decide,
    parameter_priority_enclosing BUILTINS "def f(map):\n  map".toList
      ⟨14, "map".toList⟩ ⟨['f'], [], ["map".toList], 0, 1⟩ (by decide)
      (by decide) (by decide) (Or.inr (by decide)) (by decide)⟩
